import Mathlib

/-!
Verification of kfac/layers/utils.py (saeedsoori/kfac_pytorch).

Tensors are embedded as a shape (list of dimension sizes) together with the
flat row-major list of entries, over ℚ (exact arithmetic standing for the
ideal value semantics of the floating point code).  In-place torch
operations are embedded as functions returning the new value of the mutated
tensor; `clone` produces a value-equal tensor with fresh storage, so code
that mutates only a clone leaves the caller's tensor unchanged, which the
embeddings of such functions make explicit by also returning the caller's
tensor as it stands after the call.
-/

set_option autoImplicit false

namespace KfacUtils

/-- A torch tensor: shape and row-major flat data over ℚ. -/
structure Tensor where
  shape : List Nat
  data : List ℚ
deriving DecidableEq, Repr

/-- Number of elements a tensor of this shape holds. -/
def Tensor.numel (t : Tensor) : Nat := t.shape.prod

/-- Well-formed: the flat data has exactly as many entries as the shape says. -/
def Tensor.wf (t : Tensor) : Prop := t.data.length = t.shape.prod

instance (t : Tensor) : Decidable t.wf := by unfold Tensor.wf; infer_instance

/-- Row-major entry of a matrix with row length D, default 0 out of range. -/
def entry2 (D : Nat) (data : List ℚ) (i j : Nat) : ℚ := data.getD (i * D + j) 0

/-- Build the row-major data of an N×D matrix from an entry function. -/
def mkData (N D : Nat) (f : Nat → Nat → ℚ) : List ℚ :=
  (List.range N).flatMap fun i => (List.range D).map (f i)

/-- torch tensor.new_ones(shape): a fresh all-ones tensor of the given shape. -/
def new_ones (shape : List Nat) : Tensor :=
  ⟨shape, List.replicate shape.prod 1⟩

/-- torch elementwise tensor + scalar (broadcast of a python float). -/
def addScalar (t : Tensor) (c : ℚ) : Tensor :=
  ⟨t.shape, t.data.map (· + c)⟩

/-- torch elementwise tensor / scalar. -/
def divScalar (t : Tensor) (c : ℚ) : Tensor :=
  ⟨t.shape, t.data.map (· / c)⟩

/-- torch elementwise tensor * scalar. -/
def mulScalar (t : Tensor) (c : ℚ) : Tensor :=
  ⟨t.shape, t.data.map (· * c)⟩

/-- torch elementwise addition of two same-shaped tensors. -/
def addT (a b : Tensor) : Tensor :=
  ⟨a.shape, List.zipWith (· + ·) a.data b.data⟩

/-- get_elementwise_inverse(vector, damping=None):
computes the reciprocal of each non-zero element of v.  The source adds the
damping (building a new tensor), takes the mask of nonzero entries, clones,
and writes reciprocals through the mask into the clone only.  Returns the
result together with the caller's tensor as it stands after the call (the
in-place write touches only the clone, so that is `vector` itself). -/
def get_elementwise_inverse (vector : Tensor) (damping : Option ℚ) :
    Tensor × Tensor :=
  let v := match damping with
    | some d => addScalar vector d
    | none => vector
  let mask : List Bool := v.data.map fun x => decide (x ≠ 0)
  let reciprocal := v
  let reciprocal : Tensor :=
    ⟨reciprocal.shape,
      List.zipWith (fun m x => if m then x⁻¹ else x) mask reciprocal.data⟩
  (reciprocal, vector)

/-- update_running_avg(new, current, alpha):
in-place running average current = alpha*current + (1-alpha)*new, realised as
current *= alpha/(1-alpha); current += new; current *= 1-alpha, all three
skipped when alpha == 1.  Returns the new value held by `current`. -/
def update_running_avg (new current : Tensor) (alpha : ℚ) : Tensor :=
  if alpha ≠ 1 then
    mulScalar (addT (mulScalar current (alpha / (1 - alpha))) new) (1 - alpha)
  else
    current

/-- Errors raised by torch.cat (modelling the library's RuntimeErrors, with
the offending data carried explicitly in place of the message text). -/
inductive CatErr where
  | emptyList : CatErr
  | dimOutOfRange (dim ndim : Nat) : CatErr
  | shapeMismatch (expected got : List Nat) : CatErr
deriving DecidableEq, Repr

/-- Product of the axis sizes strictly after position dim: the flat length of
one slice of the tensor at a fixed index along the leading axes up to dim. -/
def innerAt (dim : Nat) (t : Tensor) : Nat := (t.shape.drop dim).prod

/-- torch.cat(tensors, dim): every tensor must have the same number of
dimensions and agree on every axis except axis dim; the result stacks, for
each index over the axes before dim, the corresponding slices of all the
tensors in sequence order (row-major). -/
def cat (ts : List Tensor) (dim : Nat) : Except CatErr Tensor :=
  match ts with
  | [] => .error .emptyList
  | t :: rest =>
    if dim < t.shape.length then
      match rest.find? (fun s =>
          decide (¬(s.shape.length = t.shape.length ∧
            s.shape.eraseIdx dim = t.shape.eraseIdx dim))) with
      | some s => .error (.shapeMismatch t.shape s.shape)
      | none =>
        let outer := (t.shape.take dim).prod
        let newShape :=
          t.shape.set dim ((ts.map fun s => s.shape.getD dim 0).sum)
        .ok ⟨newShape,
          (List.range outer).flatMap fun i =>
            ts.flatMap fun s =>
              ((s.data.drop (i * innerAt dim s)).take (innerAt dim s))⟩
    else .error (.dimOutOfRange dim t.shape.length)

/-- append_bias_ones(tensor): torch.cat([tensor, tensor.new_ones(shape)],
dim=-1) with shape = list(tensor.shape[:-1]) + [1]; dim=-1 is the last
dimension, here written ndim - 1.  The cat propagates as an Except. -/
def append_bias_ones (tensor : Tensor) : Except CatErr Tensor :=
  cat [tensor, new_ones (tensor.shape.dropLast ++ [1])]
    (tensor.shape.length - 1)

/-- torch 2-D transpose a.t(). -/
def t2 (a : Tensor) : Tensor :=
  match a.shape with
  | [n, d] => ⟨[d, n], mkData d n fun i j => entry2 d a.data j i⟩
  | _ => a

/-- torch 2-D matrix multiply for shapes [n, k] @ [k, m]. -/
def matmul2 (a b : Tensor) : Tensor :=
  match a.shape, b.shape with
  | [n, k], [_, m] =>
    ⟨[n, m], mkData n m fun i j =>
      ((List.range k).map fun l => entry2 k a.data i l * entry2 m b.data l j).sum⟩
  | _, _ => ⟨[], []⟩

/-- Errors raised by get_cov (the two ValueErrors of the source, carrying the
shapes the messages interpolate). -/
inductive CovErr where
  | notTwoDim (shape : List Nat) : CovErr
  | shapeMismatch (aShape bShape : List Nat) : CovErr
deriving DecidableEq, Repr

/-- get_cov(a, b=None, scale=None): empirical second moment of a 2-D tensor.
Checks a is 2-D, checks b (when given) has the same shape, defaults scale to
a.size(0), then returns (C + Cᵗ)/2 with C = aᵗ @ (a/scale) when b is absent
and aᵗ @ (b/scale) when b is present. -/
def get_cov (a : Tensor) (b : Option Tensor) (scale : Option ℚ) :
    Except CovErr Tensor :=
  if a.shape.length ≠ 2 then
    .error (.notTwoDim a.shape)
  else
    match b with
    | some bt =>
      if a.shape ≠ bt.shape then
        .error (.shapeMismatch a.shape bt.shape)
      else
        let s : ℚ := match scale with
          | some s => s
          | none => (a.shape.getD 0 0 : ℚ)
        .ok (matmul2 (t2 a) (divScalar bt s))
    | none =>
      let s : ℚ := match scale with
        | some s => s
        | none => (a.shape.getD 0 0 : ℚ)
      let cov_a := matmul2 (t2 a) (divScalar a s)
      .ok (divScalar (addT cov_a (t2 cov_a)) 2)

/-- d.view(-1, d.shape[-1]): reshape to 2-D keeping the last axis and
inferring the leading axis as numel / last; the flat data is untouched. -/
def view2 (d : Tensor) : Tensor :=
  let last := d.shape.getD (d.shape.length - 1) 0
  ⟨[d.numel / last, last], d.data⟩

/-- reshape_data(data_list, batch_first=True, collapse_dims=False):
d = torch.cat(data_list, dim=int(not batch_first)); then, if collapse_dims
and d has more than 2 dimensions, d = d.view(-1, d.shape[-1]). -/
def reshape_data (data_list : List Tensor) (batch_first : Bool)
    (collapse_dims : Bool) : Except CatErr Tensor := do
  let d ← cat data_list (if batch_first then 0 else 1)
  if collapse_dims ∧ 2 < d.shape.length then
    return view2 d
  else
    return d

/-! ### List index helper lemmas -/

theorem getD_map_lt {f : ℚ → ℚ} {l : List ℚ} {k : Nat} (d : ℚ)
    (h : k < l.length) : (l.map f).getD k d = f (l.getD k d) := by
  rw [List.getD_eq_getElem l d h,
    List.getD_eq_getElem (l.map f) d (by simpa using h)]
  simp

theorem getD_zipWith_lt {f : ℚ → ℚ → ℚ} {a b : List ℚ} {k : Nat} (d : ℚ)
    (ha : k < a.length) (hb : k < b.length) :
    (List.zipWith f a b).getD k d = f (a.getD k d) (b.getD k d) := by
  rw [List.getD_eq_getElem a d ha, List.getD_eq_getElem b d hb,
    List.getD_eq_getElem (List.zipWith f a b) d (by simp [ha, hb])]
  simp

theorem zipWith_mask_eq_map (g : ℚ → ℚ) :
    ∀ l : List ℚ,
      List.zipWith (fun m x => if m then g x else x)
        (l.map fun x => decide (x ≠ 0)) l
        = l.map fun x => if x ≠ 0 then g x else x := by
  intro l
  induction l with
  | nil => rfl
  | cons x xs ih =>
      simp only [List.map_cons, List.zipWith_cons_cons, ih, decide_eq_true_eq]

/-- The damped input of get_elementwise_inverse: vector + damping elementwise
when damping is supplied, vector itself otherwise. -/
def dampedInput (vector : Tensor) (damping : Option ℚ) : Tensor :=
  match damping with
  | some d => addScalar vector d
  | none => vector

theorem get_elementwise_inverse_data (vector : Tensor) (damping : Option ℚ) :
    (get_elementwise_inverse vector damping).1
      = ⟨(dampedInput vector damping).shape,
          (dampedInput vector damping).data.map
            fun x => if x ≠ 0 then x⁻¹ else x⟩ := by
  unfold get_elementwise_inverse dampedInput
  cases damping with
  | none => simp only [zipWith_mask_eq_map]
  | some d => simp only [zipWith_mask_eq_map]

/-- C2: get_elementwise_inverse returns a tensor of the same shape (and data
length) as the damped input, mapping each zero entry of the damped input to
zero and each nonzero entry x to 1/x, where the damped input is
vector + damping elementwise when damping is supplied and vector itself
otherwise; the caller's vector is returned unchanged (the in-place write
lands only on the clone). -/
theorem get_elementwise_inverse_spec (vector : Tensor) (damping : Option ℚ) :
    (get_elementwise_inverse vector damping).1.shape
        = (dampedInput vector damping).shape
    ∧ (get_elementwise_inverse vector damping).1.data.length
        = (dampedInput vector damping).data.length
    ∧ (∀ k, k < (dampedInput vector damping).data.length →
        (get_elementwise_inverse vector damping).1.data.getD k 0
          = (if (dampedInput vector damping).data.getD k 0 = 0 then 0
             else ((dampedInput vector damping).data.getD k 0)⁻¹))
    ∧ (get_elementwise_inverse vector damping).2 = vector := by
  rw [get_elementwise_inverse_data]
  refine ⟨rfl, by simp, ?_, rfl⟩
  intro k hk
  rw [getD_map_lt 0 hk]
  by_cases h : (dampedInput vector damping).data.getD k 0 = 0
  · rw [if_neg (not_not_intro h), if_pos h]
    exact h
  · rw [if_pos h, if_neg h]

theorem get_elementwise_inverse_spec_witness :
    (1 : Nat) < (dampedInput ⟨[3], [1/2, 0, 4]⟩ (some 1)).data.length
    ∧ (get_elementwise_inverse ⟨[3], [1/2, 0, 4]⟩ (some 1)).1.data.getD 1 0
        = (if (dampedInput ⟨[3], [1/2, 0, 4]⟩ (some 1)).data.getD 1 0 = 0
           then 0
           else ((dampedInput ⟨[3], [1/2, 0, 4]⟩ (some 1)).data.getD 1 0)⁻¹) :=
  ⟨by decide,
    (get_elementwise_inverse_spec ⟨[3], [1/2, 0, 4]⟩ (some 1)).2.2.1 1
      (by decide)⟩

/-- C3: update_running_avg leaves the shape of current in place and stores
alpha*current + (1-alpha)*new elementwise into current; for alpha = 1 it
performs no operation at all, returning current itself unchanged. -/
theorem update_running_avg_spec (new current : Tensor) (alpha : ℚ)
    (hlen : current.data.length = new.data.length) :
    (update_running_avg new current alpha).shape = current.shape
    ∧ (∀ k, k < current.data.length →
        (update_running_avg new current alpha).data.getD k 0
          = alpha * current.data.getD k 0
            + (1 - alpha) * new.data.getD k 0)
    ∧ update_running_avg new current 1 = current := by
  refine ⟨?_, ?_, by simp [update_running_avg]⟩
  · unfold update_running_avg
    by_cases h : alpha ≠ 1 <;> simp [h, mulScalar, addT]
  · intro k hk
    unfold update_running_avg
    by_cases h : alpha = 1
    · simp [h]
    · have h1 : (1 : ℚ) - alpha ≠ 0 := sub_ne_zero.mpr (Ne.symm h)
      simp only [h, ne_eq, not_false_iff, if_pos, if_true]
      rw [show (mulScalar (addT (mulScalar current (alpha / (1 - alpha))) new)
            (1 - alpha)).data
          = (List.zipWith (· + ·)
              (current.data.map (· * (alpha / (1 - alpha)))) new.data).map
                (· * (1 - alpha)) from rfl]
      rw [getD_map_lt 0
        (by simp only [List.length_zipWith, List.length_map]; omega)]
      rw [getD_zipWith_lt 0 (by simpa using hk) (hlen ▸ hk)]
      rw [getD_map_lt 0 hk]
      field_simp
      ring

theorem update_running_avg_spec_witness :
    (Tensor.mk [2] [100, 200]).data.length
        = (Tensor.mk [2] [10, 20]).data.length
    ∧ (0 : Nat) < (Tensor.mk [2] [100, 200]).data.length
    ∧ (update_running_avg ⟨[2], [10, 20]⟩ ⟨[2], [100, 200]⟩ (1/4)).data.getD 0 0
        = (1/4) * (Tensor.mk [2] [100, 200]).data.getD 0 0
          + (1 - 1/4) * (Tensor.mk [2] [10, 20]).data.getD 0 0 :=
  ⟨by decide, by decide,
    (update_running_avg_spec ⟨[2], [10, 20]⟩ ⟨[2], [100, 200]⟩ (1/4)
      (by decide)).2.1 0 (by decide)⟩

/-- C8: applying get_elementwise_inverse (without damping) twice to a tensor
all of whose entries are nonzero gives back the original tensor. -/
theorem get_elementwise_inverse_involutive (v : Tensor)
    (hv : ∀ x ∈ v.data, x ≠ 0) :
    (get_elementwise_inverse (get_elementwise_inverse v none).1 none).1 = v := by
  rw [get_elementwise_inverse_data, get_elementwise_inverse_data]
  show Tensor.mk v.shape
      ((v.data.map fun x => if x ≠ 0 then x⁻¹ else x).map
        fun x => if x ≠ 0 then x⁻¹ else x) = v
  rw [List.map_map]
  have : v.data.map
      ((fun x : ℚ => if x ≠ 0 then x⁻¹ else x) ∘
        fun x : ℚ => if x ≠ 0 then x⁻¹ else x) = v.data.map id := by
    apply List.map_congr_left
    intro x hx
    have hx0 : x ≠ 0 := hv x hx
    simp [Function.comp, hx0, inv_ne_zero hx0]
  rw [this, List.map_id]

theorem get_elementwise_inverse_involutive_witness :
    (∀ x ∈ (Tensor.mk [3] [2, -3, 4]).data, x ≠ 0)
    ∧ (get_elementwise_inverse
        (get_elementwise_inverse ⟨[3], [2, -3, 4]⟩ none).1 none).1
      = ⟨[3], [2, -3, 4]⟩ :=
  ⟨by decide, get_elementwise_inverse_involutive ⟨[3], [2, -3, 4]⟩ (by decide)⟩

/-! ### Indexing into a row-major flattening -/

theorem length_flatMap_range {f : Nat → List ℚ} {n L : Nat}
    (h : ∀ i, i < n → (f i).length = L) :
    ((List.range n).flatMap f).length = n * L := by
  induction n with
  | zero => simp
  | succ m ih =>
      rw [List.range_succ, List.flatMap_append, List.length_append,
        ih (fun i hi => h i (Nat.lt_succ_of_lt hi))]
      simp [h m (Nat.lt_succ_self m), Nat.succ_mul]

theorem segment_flatMap_range {f : Nat → List ℚ} {n L : Nat}
    (h : ∀ i, i < n → (f i).length = L) :
    ∀ i, i < n → (((List.range n).flatMap f).drop (i * L)).take L = f i := by
  induction n with
  | zero => intro i hi; omega
  | succ m ih =>
      intro i hi
      rw [List.range_succ, List.flatMap_append]
      have hlen : ((List.range m).flatMap f).length = m * L :=
        length_flatMap_range fun j hj => h j (Nat.lt_succ_of_lt hj)
      rcases Nat.lt_succ_iff_lt_or_eq.mp hi with hlt | heq
      · have hmul : i * L + L ≤ m * L := by
          have := Nat.mul_le_mul (Nat.succ_le_of_lt hlt) (Nat.le_refl L)
          rwa [Nat.succ_mul] at this
        have hd : i * L ≤ ((List.range m).flatMap f).length := by
          rw [hlen]; omega
        rw [List.drop_append_of_le_length hd]
        have ht : L ≤ (((List.range m).flatMap f).drop (i * L)).length := by
          rw [List.length_drop, hlen]; omega
        rw [List.take_append_of_le_length ht]
        exact ih (fun j hj => h j (Nat.lt_succ_of_lt hj)) i hlt
      · subst heq
        have hd : ((List.range i).flatMap f ++ [i].flatMap f).drop (i * L)
            = [i].flatMap f := List.drop_left' hlen
        rw [hd, List.flatMap_cons, List.flatMap_nil, List.append_nil,
          List.take_of_length_le (le_of_eq (h i (Nat.lt_succ_self i)))]

theorem getD_take_lt {α : Type} {l : List α} {L j : Nat} (d : α) (hj : j < L) :
    (l.take L).getD j d = l.getD j d := by
  simp [List.getD_eq_getElem?_getD, List.getElem?_take, hj]

theorem getD_drop_add {α : Type} {l : List α} (d : α) (m j : Nat) :
    (l.drop m).getD j d = l.getD (m + j) d := by
  simp [List.getD_eq_getElem?_getD, List.getElem?_drop]

theorem getD_flatMap_range {f : Nat → List ℚ} {n L : Nat} (d : ℚ)
    (h : ∀ i, i < n → (f i).length = L)
    {i j : Nat} (hi : i < n) (hj : j < L) :
    ((List.range n).flatMap f).getD (i * L + j) d = (f i).getD j d := by
  rw [← getD_drop_add d (i * L) j, ← getD_take_lt d hj,
    segment_flatMap_range h i hi]

theorem entry2_mkData {N D : Nat} {f : Nat → Nat → ℚ} {i j : Nat}
    (hi : i < N) (hj : j < D) :
    entry2 D (mkData N D f) i j = f i j := by
  unfold entry2 mkData
  rw [getD_flatMap_range 0 (fun k _ => by simp) hi hj]
  rw [List.getD_eq_getElem _ _ (by simpa using hj)]
  simp

theorem length_mkData (N D : Nat) (f : Nat → Nat → ℚ) :
    (mkData N D f).length = N * D :=
  length_flatMap_range fun i _ => by simp

theorem mkData_ext {N D : Nat} {f g : Nat → Nat → ℚ}
    (h : ∀ i j, i < N → j < D → f i j = g i j) :
    mkData N D f = mkData N D g := by
  unfold mkData
  apply List.flatMap_congr
  intro i hi
  apply List.map_congr_left
  intro j hj
  exact h i j (List.mem_range.mp hi) (List.mem_range.mp hj)

theorem mkData_entry2_self {l : List ℚ} {N D : Nat} (h : l.length = N * D) :
    mkData N D (fun i j => entry2 D l i j) = l := by
  apply List.ext_getElem
  · rw [length_mkData, h]
  · intro k h1 h2
    rw [length_mkData] at h1
    have hD : 0 < D := Nat.pos_of_ne_zero fun h0 => by
      rw [h0, Nat.mul_zero] at h1; exact Nat.not_lt_zero k h1
    have hiN : k / D < N := Nat.div_lt_of_lt_mul (by rw [Nat.mul_comm]; omega)
    have hjD : k % D < D := Nat.mod_lt k hD
    have hk : k = k / D * D + k % D := by
      have := Nat.div_add_mod k D
      rw [Nat.mul_comm] at this
      omega
    calc (mkData N D fun i j => entry2 D l i j)[k]
        = (mkData N D fun i j => entry2 D l i j).getD k 0 := by
          rw [List.getD_eq_getElem (mkData N D fun i j => entry2 D l i j) 0
            (by rw [length_mkData]; omega)]
      _ = entry2 D (mkData N D fun i j => entry2 D l i j) (k / D) (k % D) := by
          unfold entry2; rw [← hk]
      _ = entry2 D l (k / D) (k % D) := entry2_mkData hiN hjD
      _ = l.getD k 0 := by unfold entry2; rw [← hk]
      _ = l[k] := List.getD_eq_getElem l 0 h2

/-! ### get_cov -/

/-- Entry (i, j) of xᵗ @ (y / s) for x, y of shape [N, D]: the mathematical
matrix product, written as an explicit sum over the contracted index. -/
def secondMomentEntry (x y : Tensor) (N D : Nat) (s : ℚ) (i j : Nat) : ℚ :=
  ((List.range N).map fun l => entry2 D x.data l i * (entry2 D y.data l j / s)).sum

theorem t2_eq (a : Tensor) (N D : Nat) (ha : a.shape = [N, D]) :
    t2 a = ⟨[D, N], mkData D N fun i j => entry2 D a.data j i⟩ := by
  unfold t2
  rw [ha]

theorem entry2_matmul_t2_div (a b : Tensor) (N D : Nat) (s : ℚ)
    (ha : a.shape = [N, D]) (hb : b.shape = [N, D])
    (hwb : b.data.length = N * D) {i j : Nat} (hi : i < D) (hj : j < D) :
    entry2 D (matmul2 (t2 a) (divScalar b s)).data i j
      = secondMomentEntry a b N D s i j := by
  rw [t2_eq a N D ha]
  unfold matmul2 divScalar
  simp only [hb]
  rw [entry2_mkData hi hj]
  unfold secondMomentEntry
  congr 1
  apply List.map_congr_left
  intro l hl
  have hlN : l < N := List.mem_range.mp hl
  rw [show entry2 N (mkData D N fun i j => entry2 D a.data j i) i l
      = entry2 D a.data l i from entry2_mkData hi hlN]
  congr 1
  unfold entry2
  have hidx : l * D + j < b.data.length := by
    rw [hwb]
    have : (l + 1) * D ≤ N * D :=
      Nat.mul_le_mul (Nat.succ_le_of_lt hlN) (Nat.le_refl D)
    rw [Nat.succ_mul] at this
    omega
  rw [getD_map_lt 0 hidx]

theorem matmul_t2_div_eq (a b : Tensor) (N D : Nat) (s : ℚ)
    (ha : a.shape = [N, D]) (hb : b.shape = [N, D]) :
    matmul2 (t2 a) (divScalar b s)
      = ⟨[D, D], mkData D D fun i j =>
          ((List.range N).map fun l =>
            entry2 N (t2 a).data i l
              * entry2 D (b.data.map (· / s)) l j).sum⟩ := by
  rw [t2_eq a N D ha]
  unfold matmul2 divScalar
  simp only [hb]

/-- The scale get_cov uses: the caller's scale when supplied, else a.size(0). -/
def covScale (a : Tensor) (sc : Option ℚ) : ℚ :=
  match sc with
  | some s => s
  | none => (a.shape.getD 0 0 : ℚ)

theorem get_cov_none_eq (a : Tensor) (sc : Option ℚ)
    (h2 : a.shape.length = 2) :
    get_cov a none sc
      = .ok (divScalar
          (addT (matmul2 (t2 a) (divScalar a (covScale a sc)))
            (t2 (matmul2 (t2 a) (divScalar a (covScale a sc))))) 2) := by
  unfold get_cov covScale
  rw [if_neg (not_not_intro h2)]

theorem get_cov_some_eq (a bt : Tensor) (sc : Option ℚ)
    (h2 : a.shape.length = 2) (hbs : a.shape = bt.shape) :
    get_cov a (some bt) sc
      = .ok (matmul2 (t2 a) (divScalar bt (covScale a sc))) := by
  unfold get_cov covScale
  rw [if_neg (not_not_intro h2)]
  simp only [if_neg (not_not_intro hbs)]

theorem cov_sym_shape (a : Tensor) (N D : Nat) (s : ℚ)
    (ha : a.shape = [N, D]) :
    (divScalar (addT (matmul2 (t2 a) (divScalar a s))
        (t2 (matmul2 (t2 a) (divScalar a s)))) 2).shape = [D, D]
    ∧ (divScalar (addT (matmul2 (t2 a) (divScalar a s))
        (t2 (matmul2 (t2 a) (divScalar a s)))) 2).data.length = D * D := by
  have hC := matmul_t2_div_eq a a N D s ha ha
  have hCs : (matmul2 (t2 a) (divScalar a s)).shape = [D, D] := by rw [hC]
  have hCl : (matmul2 (t2 a) (divScalar a s)).data.length = D * D := by
    rw [hC]; exact length_mkData D D _
  have ht2Cl : (t2 (matmul2 (t2 a) (divScalar a s))).data.length = D * D := by
    rw [t2_eq _ D D hCs]; exact length_mkData D D _
  constructor
  · exact hCs
  · show ((List.zipWith (· + ·) (matmul2 (t2 a) (divScalar a s)).data
        (t2 (matmul2 (t2 a) (divScalar a s))).data).map (· / 2)).length = D * D
    rw [List.length_map, List.length_zipWith, hCl, ht2Cl]
    omega

theorem entry2_cov_sym (a : Tensor) (N D : Nat) (s : ℚ)
    (ha : a.shape = [N, D]) (hwa : a.data.length = N * D)
    {i j : Nat} (hi : i < D) (hj : j < D) :
    entry2 D (divScalar (addT (matmul2 (t2 a) (divScalar a s))
        (t2 (matmul2 (t2 a) (divScalar a s)))) 2).data i j
      = (secondMomentEntry a a N D s i j + secondMomentEntry a a N D s j i) / 2 := by
  have hk : i * D + j < D * D := by
    have : (i + 1) * D ≤ D * D :=
      Nat.mul_le_mul (Nat.succ_le_of_lt hi) (Nat.le_refl D)
    rw [Nat.succ_mul] at this
    omega
  have hC := matmul_t2_div_eq a a N D s ha ha
  have hCs : (matmul2 (t2 a) (divScalar a s)).shape = [D, D] := by rw [hC]
  have hCl : (matmul2 (t2 a) (divScalar a s)).data.length = D * D := by
    rw [hC]; exact length_mkData D D _
  have ht2C := t2_eq (matmul2 (t2 a) (divScalar a s)) D D hCs
  have ht2Cl : (t2 (matmul2 (t2 a) (divScalar a s))).data.length = D * D := by
    rw [ht2C]; exact length_mkData D D _
  show ((List.zipWith (· + ·) (matmul2 (t2 a) (divScalar a s)).data
      (t2 (matmul2 (t2 a) (divScalar a s))).data).map (· / 2)).getD (i * D + j) 0
    = _
  rw [getD_map_lt 0 (by rw [List.length_zipWith, hCl, ht2Cl]; omega)]
  rw [getD_zipWith_lt 0 (by rw [hCl]; omega) (by rw [ht2Cl]; omega)]
  have e1 : (matmul2 (t2 a) (divScalar a s)).data.getD (i * D + j) 0
      = secondMomentEntry a a N D s i j :=
    entry2_matmul_t2_div a a N D s ha ha hwa hi hj
  have e2 : (t2 (matmul2 (t2 a) (divScalar a s))).data.getD (i * D + j) 0
      = secondMomentEntry a a N D s j i := by
    rw [ht2C]
    show entry2 D (mkData D D _) i j = _
    rw [entry2_mkData hi hj]
    exact entry2_matmul_t2_div a a N D s ha ha hwa hj hi
  rw [e1, e2]

/-- C1: for a 2-dimensional a of shape [N, D], get_cov(a) (b omitted) returns
a new [D, D] tensor whose (i, j) entry is (C[i,j] + C[j,i])/2 for
C = aᵗ @ (a / scale); get_cov(a, b) for b of the same shape returns
aᵗ @ (b / scale) with no symmetrization; the scale is the caller's when
supplied and defaults to N = a.size(0) otherwise. -/
theorem get_cov_spec (a b : Tensor) (N D : Nat) (sc : Option ℚ)
    (ha : a.shape = [N, D]) (hwa : a.data.length = N * D)
    (hb : b.shape = [N, D]) (hwb : b.data.length = N * D) :
    covScale a none = (N : ℚ)
    ∧ (∀ s, covScale a (some s) = s)
    ∧ (∃ r, get_cov a none sc = .ok r
        ∧ r.shape = [D, D] ∧ r.data.length = D * D
        ∧ ∀ i j, i < D → j < D →
            entry2 D r.data i j
              = (secondMomentEntry a a N D (covScale a sc) i j
                 + secondMomentEntry a a N D (covScale a sc) j i) / 2)
    ∧ (∃ r, get_cov a (some b) sc = .ok r
        ∧ r.shape = [D, D] ∧ r.data.length = D * D
        ∧ ∀ i j, i < D → j < D →
            entry2 D r.data i j
              = secondMomentEntry a b N D (covScale a sc) i j) := by
  have h2 : a.shape.length = 2 := by rw [ha]; rfl
  refine ⟨by unfold covScale; rw [ha]; rfl, fun s => rfl, ?_, ?_⟩
  · refine ⟨_, get_cov_none_eq a sc h2, ?_, ?_, ?_⟩
    · exact (cov_sym_shape a N D (covScale a sc) ha).1
    · exact (cov_sym_shape a N D (covScale a sc) ha).2
    · intro i j hi hj
      exact entry2_cov_sym a N D (covScale a sc) ha hwa hi hj
  · refine ⟨_, get_cov_some_eq a b sc h2 (by rw [ha, hb]), ?_, ?_, ?_⟩
    · rw [matmul_t2_div_eq a b N D (covScale a sc) ha hb]
    · rw [matmul_t2_div_eq a b N D (covScale a sc) ha hb]
      exact length_mkData D D _
    · intro i j hi hj
      exact entry2_matmul_t2_div a b N D (covScale a sc) ha hb hwb hi hj

theorem get_cov_spec_witness :
    (Tensor.mk [2, 2] [1, 2, 3, 4]).shape = [2, 2]
    ∧ (Tensor.mk [2, 2] [1, 2, 3, 4]).data.length = 2 * 2
    ∧ (∃ r, get_cov ⟨[2, 2], [1, 2, 3, 4]⟩ none none = .ok r
        ∧ r.shape = [2, 2] ∧ r.data.length = 2 * 2
        ∧ ∀ i j, i < 2 → j < 2 →
            entry2 2 r.data i j
              = (secondMomentEntry ⟨[2, 2], [1, 2, 3, 4]⟩
                  ⟨[2, 2], [1, 2, 3, 4]⟩ 2 2
                  (covScale ⟨[2, 2], [1, 2, 3, 4]⟩ none) i j
                 + secondMomentEntry ⟨[2, 2], [1, 2, 3, 4]⟩
                  ⟨[2, 2], [1, 2, 3, 4]⟩ 2 2
                  (covScale ⟨[2, 2], [1, 2, 3, 4]⟩ none) j i) / 2) :=
  ⟨rfl, rfl,
    (get_cov_spec ⟨[2, 2], [1, 2, 3, 4]⟩ ⟨[2, 2], [5, 6, 7, 8]⟩ 2 2 none
      rfl rfl rfl rfl).2.2.1⟩

/-- C7: the [D, D] tensor returned by get_cov(a) with b omitted equals its
own transpose. -/
theorem get_cov_symmetric (a r : Tensor) (N D : Nat) (sc : Option ℚ)
    (ha : a.shape = [N, D]) (hwa : a.data.length = N * D)
    (hr : get_cov a none sc = .ok r) : t2 r = r := by
  have h2 : a.shape.length = 2 := by rw [ha]; rfl
  rw [get_cov_none_eq a sc h2] at hr
  have hre : r = divScalar (addT (matmul2 (t2 a) (divScalar a (covScale a sc)))
      (t2 (matmul2 (t2 a) (divScalar a (covScale a sc))))) 2 :=
    (Except.ok.inj hr).symm
  have hshape : r.shape = [D, D] := by
    rw [hre]; exact (cov_sym_shape a N D (covScale a sc) ha).1
  have hlen : r.data.length = D * D := by
    rw [hre]; exact (cov_sym_shape a N D (covScale a sc) ha).2
  have hsym : ∀ i j, i < D → j < D →
      entry2 D r.data j i = entry2 D r.data i j := by
    intro i j hi hj
    rw [hre, entry2_cov_sym a N D (covScale a sc) ha hwa hj hi,
      entry2_cov_sym a N D (covScale a sc) ha hwa hi hj, add_comm]
  rw [t2_eq r D D hshape]
  have hdata : mkData D D (fun i j => entry2 D r.data j i) = r.data := by
    rw [mkData_ext hsym]
    exact mkData_entry2_self hlen
  cases r with
  | mk rs rd =>
      simp only at hshape hdata
      rw [hshape, hdata]

theorem get_cov_symmetric_witness :
    ∃ r, get_cov ⟨[2, 2], [1, 2, 3, 4]⟩ none none = .ok r ∧ t2 r = r := by
  have hr := get_cov_none_eq ⟨[2, 2], [1, 2, 3, 4]⟩ none rfl
  exact ⟨_, hr,
    get_cov_symmetric ⟨[2, 2], [1, 2, 3, 4]⟩ _ 2 2 none rfl rfl hr⟩

/-- C6: get_cov errors exactly when a is not 2-dimensional or b is supplied
with a different shape; the first error carries a's shape, the second both
shapes; under the preconditions no error is raised. -/
theorem get_cov_error_spec (a : Tensor) (b : Option Tensor) (sc : Option ℚ) :
    ((∃ e, get_cov a b sc = .error e) ↔
      (a.shape.length ≠ 2 ∨ ∃ bt, b = some bt ∧ bt.shape ≠ a.shape))
    ∧ (a.shape.length ≠ 2 → get_cov a b sc = .error (.notTwoDim a.shape))
    ∧ (∀ bt, a.shape.length = 2 → b = some bt → bt.shape ≠ a.shape →
        get_cov a b sc = .error (.shapeMismatch a.shape bt.shape)) := by
  by_cases h2 : a.shape.length = 2
  · cases b with
    | none =>
        refine ⟨?_, fun h => absurd h2 h, fun bt _ hb => by cases hb⟩
        rw [get_cov_none_eq a sc h2]
        constructor
        · rintro ⟨e, he⟩; cases he
        · rintro (h | ⟨bt, hbt, _⟩)
          · exact absurd h2 h
          · cases hbt
    | some bt =>
        by_cases hbs : bt.shape = a.shape
        · refine ⟨?_, fun h => absurd h2 h,
            fun bu _ hbu hne => by cases hbu; exact absurd hbs hne⟩
          rw [get_cov_some_eq a bt sc h2 hbs.symm]
          constructor
          · rintro ⟨e, he⟩; cases he
          · rintro (h | ⟨bu, hbu, hne⟩)
            · exact absurd h2 h
            · cases hbu; exact absurd hbs hne
        · have herr : get_cov a (some bt) sc
              = .error (.shapeMismatch a.shape bt.shape) := by
            unfold get_cov
            rw [if_neg (not_not_intro h2)]
            exact if_pos (fun h : a.shape = bt.shape => hbs h.symm)
          refine ⟨?_, fun h => absurd h2 h,
            fun bu _ hbu _ => by cases hbu; exact herr⟩
          rw [herr]
          constructor
          · intro _; exact Or.inr ⟨bt, rfl, hbs⟩
          · intro _; exact ⟨.shapeMismatch a.shape bt.shape, rfl⟩
  · have herr : get_cov a b sc = .error (.notTwoDim a.shape) := by
      unfold get_cov
      rw [if_pos h2]
    refine ⟨?_, fun _ => herr, fun bt h2a => absurd h2a h2⟩
    rw [herr]
    constructor
    · intro _; exact Or.inl h2
    · intro _; exact ⟨.notTwoDim a.shape, rfl⟩

theorem get_cov_error_spec_witness :
    ((Tensor.mk [2, 2, 1] [1, 2, 3, 4]).shape.length ≠ 2
      → get_cov ⟨[2, 2, 1], [1, 2, 3, 4]⟩ none none
          = .error (.notTwoDim [2, 2, 1]))
    ∧ get_cov ⟨[2, 2, 1], [1, 2, 3, 4]⟩ none none
          = .error (.notTwoDim [2, 2, 1]) :=
  ⟨(get_cov_error_spec ⟨[2, 2, 1], [1, 2, 3, 4]⟩ none none).2.1,
    (get_cov_error_spec ⟨[2, 2, 1], [1, 2, 3, 4]⟩ none none).2.1 (by decide)⟩

/-! ### torch.cat -/

/-- The shape agreement torch.cat demands of every tensor against the first:
same number of dimensions and the same size on every axis but dim. -/
def shapeCompat (dim : Nat) (s t : Tensor) : Prop :=
  s.shape.length = t.shape.length ∧ s.shape.eraseIdx dim = t.shape.eraseIdx dim

instance (dim : Nat) (s t : Tensor) : Decidable (shapeCompat dim s t) := by
  unfold shapeCompat; infer_instance

theorem getD_append_lt {α : Type} {a b : List α} (d : α) {k : Nat}
    (h : k < a.length) : (a ++ b).getD k d = a.getD k d := by
  simp [List.getD_eq_getElem?_getD, List.getElem?_append, h]

theorem getD_append_ge {α : Type} {a b : List α} (d : α) {k : Nat}
    (h : a.length ≤ k) : (a ++ b).getD k d = b.getD (k - a.length) d := by
  simp [List.getD_eq_getElem?_getD, List.getElem?_append_right h]

theorem cat_ok (t : Tensor) (rest : List Tensor) (dim : Nat)
    (hdim : dim < t.shape.length)
    (hcompat : ∀ s ∈ rest, shapeCompat dim s t) :
    cat (t :: rest) dim
      = .ok ⟨t.shape.set dim (((t :: rest).map fun s => s.shape.getD dim 0).sum),
          (List.range (t.shape.take dim).prod).flatMap fun i =>
            (t :: rest).flatMap fun s =>
              ((s.data.drop (i * innerAt dim s)).take (innerAt dim s))⟩ := by
  simp only [cat]
  rw [if_pos hdim]
  have hfind : rest.find? (fun s =>
      decide (¬(s.shape.length = t.shape.length ∧
        s.shape.eraseIdx dim = t.shape.eraseIdx dim))) = none := by
    rw [List.find?_eq_none]
    intro s hs
    simpa using hcompat s hs
  rw [hfind]

theorem cat_dim_oob (t : Tensor) (rest : List Tensor) (dim : Nat)
    (h : ¬ dim < t.shape.length) :
    cat (t :: rest) dim = .error (.dimOutOfRange dim t.shape.length) := by
  simp only [cat]
  rw [if_neg h]

theorem shapeCompat_take {dim : Nat} {s t : Tensor}
    (hdim : dim < t.shape.length) (h : shapeCompat dim s t) :
    s.shape.take dim = t.shape.take dim := by
  have he := h.2
  rw [List.eraseIdx_eq_take_drop_succ, List.eraseIdx_eq_take_drop_succ] at he
  exact (List.append_inj he
    (by rw [List.length_take, List.length_take, h.1])).1

theorem shapeCompat_drop {dim : Nat} {s t : Tensor}
    (hdim : dim < t.shape.length) (h : shapeCompat dim s t) :
    s.shape.drop (dim + 1) = t.shape.drop (dim + 1) := by
  have he := h.2
  rw [List.eraseIdx_eq_take_drop_succ, List.eraseIdx_eq_take_drop_succ] at he
  exact (List.append_inj he
    (by rw [List.length_take, List.length_take, h.1])).2

theorem wf_data_length {s : Tensor} (dim : Nat) (hw : s.wf) :
    s.data.length = (s.shape.take dim).prod * innerAt dim s := by
  rw [hw, innerAt, ← List.prod_append, List.take_append_drop]

theorem chunk_length {s : Tensor} {dim : Nat} (hw : s.wf) {i : Nat}
    (hi : i < (s.shape.take dim).prod) :
    ((s.data.drop (i * innerAt dim s)).take (innerAt dim s)).length
      = innerAt dim s := by
  rw [List.length_take, List.length_drop, wf_data_length dim hw]
  have : (i + 1) * innerAt dim s ≤ (s.shape.take dim).prod * innerAt dim s :=
    Nat.mul_le_mul (Nat.succ_le_of_lt hi) (Nat.le_refl _)
  rw [Nat.succ_mul] at this
  omega

theorem prod_set_of_lt {l : List Nat} {dim : Nat} (v : Nat)
    (h : dim < l.length) :
    (l.set dim v).prod = (l.take dim).prod * (v * (l.drop (dim + 1)).prod) := by
  rw [List.set_eq_take_cons_drop v h, List.prod_append, List.prod_cons]

theorem prod_eq_take_getElem_drop {l : List Nat} {dim : Nat}
    (h : dim < l.length) :
    l.prod = (l.take dim).prod * (l[dim] * (l.drop (dim + 1)).prod) := by
  conv_lhs => rw [← List.take_append_drop dim l]
  rw [List.prod_append, List.drop_eq_getElem_cons h, List.prod_cons]

theorem cat_spec (t : Tensor) (rest : List Tensor) (dim : Nat)
    (hdim : dim < t.shape.length)
    (hcompat : ∀ s ∈ rest, shapeCompat dim s t)
    (hwf : ∀ s ∈ t :: rest, s.wf) :
    ∃ d, cat (t :: rest) dim = .ok d
    ∧ d.shape
        = t.shape.set dim (((t :: rest).map fun s => s.shape.getD dim 0).sum)
    ∧ d.wf
    ∧ (∀ i, i < (t.shape.take dim).prod →
        (d.data.drop (i * ((t :: rest).map fun s => innerAt dim s).sum)).take
            (((t :: rest).map fun s => innerAt dim s).sum)
          = (t :: rest).flatMap fun s =>
              (s.data.drop (i * innerAt dim s)).take (innerAt dim s)) := by
  have hcompat' : ∀ s ∈ t :: rest, shapeCompat dim s t := by
    intro s hs
    rcases List.mem_cons.mp hs with h | h
    · subst h; exact ⟨rfl, rfl⟩
    · exact hcompat s h
  have hsdim : ∀ s ∈ t :: rest, dim < s.shape.length := by
    intro s hs
    rw [(hcompat' s hs).1]
    exact hdim
  have houter : ∀ s ∈ t :: rest,
      (s.shape.take dim).prod = (t.shape.take dim).prod := by
    intro s hs
    rw [shapeCompat_take hdim (hcompat' s hs)]
  have hglen : ∀ i, i < (t.shape.take dim).prod →
      ((t :: rest).flatMap fun s =>
        (s.data.drop (i * innerAt dim s)).take (innerAt dim s)).length
      = ((t :: rest).map fun s => innerAt dim s).sum := by
    intro i hi
    rw [List.length_flatMap]
    congr 1
    apply List.map_congr_left
    intro s hs
    exact chunk_length (hwf s hs) (by rw [houter s hs]; exact hi)
  have hdlen :
      ((List.range (t.shape.take dim).prod).flatMap fun i =>
        (t :: rest).flatMap fun s =>
          (s.data.drop (i * innerAt dim s)).take (innerAt dim s)).length
      = (t.shape.take dim).prod * ((t :: rest).map fun s => innerAt dim s).sum :=
    length_flatMap_range fun i hi => hglen i hi
  have htail : ∀ s ∈ t :: rest,
      s.shape.drop (dim + 1) = t.shape.drop (dim + 1) := by
    intro s hs
    exact shapeCompat_drop hdim (hcompat' s hs)
  have hinner : ∀ s ∈ t :: rest,
      innerAt dim s = s.shape.getD dim 0 * (t.shape.drop (dim + 1)).prod := by
    intro s hs
    rw [innerAt, List.drop_eq_getElem_cons (hsdim s hs), List.prod_cons,
      htail s hs, List.getD_eq_getElem s.shape 0 (hsdim s hs)]
  have hsum : ((t :: rest).map fun s => innerAt dim s).sum
      = ((t :: rest).map fun s => s.shape.getD dim 0).sum
        * (t.shape.drop (dim + 1)).prod := by
    rw [← List.sum_map_mul_right]
    congr 1
    exact List.map_congr_left hinner
  refine ⟨_, cat_ok t rest dim hdim hcompat, rfl, ?_, ?_⟩
  · show (((List.range (t.shape.take dim).prod).flatMap fun i =>
        (t :: rest).flatMap fun s =>
          (s.data.drop (i * innerAt dim s)).take (innerAt dim s))).length
      = (t.shape.set dim
          (((t :: rest).map fun s => s.shape.getD dim 0).sum)).prod
    rw [hdlen, prod_set_of_lt _ hdim, hsum]
  · intro i hi
    exact segment_flatMap_range (fun k hk => hglen k hk) i hi

/-! ### reshape_data -/

/-- C5: reshape_data concatenates the tensors of a non-empty, axis-agreeing
data_list in sequence order along axis 0 (batch_first) or axis 1: the
result's shape replaces the concatenation axis by the sum of the parts,
the result is well formed, for batch_first the flat data is the tensors'
data in sequence order, and each outer slice is the concatenation of the
tensors' slices in sequence order; when collapse_dims holds and the result
has more than 2 dimensions it is viewed as 2-D with the last axis kept and
the leading axes flattened into one (element count unchanged, flat row-major
data untouched), otherwise collapse_dims has no effect. -/
theorem reshape_data_spec (t : Tensor) (rest : List Tensor) (bf cd : Bool)
    (hdim : (if bf then 0 else 1) < t.shape.length)
    (hcompat : ∀ s ∈ rest, shapeCompat (if bf then 0 else 1) s t)
    (hwf : ∀ s ∈ t :: rest, s.wf) :
    ∃ d, cat (t :: rest) (if bf then 0 else 1) = .ok d
    ∧ d.shape = t.shape.set (if bf then 0 else 1)
        (((t :: rest).map fun s => s.shape.getD (if bf then 0 else 1) 0).sum)
    ∧ d.wf
    ∧ (bf = true → d.data = ((t :: rest).map Tensor.data).flatten)
    ∧ (∀ i, i < (t.shape.take (if bf then 0 else 1)).prod →
        (d.data.drop
            (i * ((t :: rest).map fun s => innerAt (if bf then 0 else 1) s).sum)).take
            (((t :: rest).map fun s => innerAt (if bf then 0 else 1) s).sum)
          = (t :: rest).flatMap fun s =>
              (s.data.drop (i * innerAt (if bf then 0 else 1) s)).take
                (innerAt (if bf then 0 else 1) s))
    ∧ (¬(cd = true ∧ 2 < d.shape.length) →
        reshape_data (t :: rest) bf cd = .ok d)
    ∧ (cd = true → 2 < d.shape.length →
        0 < d.shape.getD (d.shape.length - 1) 0 →
        reshape_data (t :: rest) bf cd
          = .ok ⟨[d.shape.dropLast.prod, d.shape.getD (d.shape.length - 1) 0],
              d.data⟩
        ∧ d.shape.dropLast.prod * d.shape.getD (d.shape.length - 1) 0
            = d.numel) := by
  obtain ⟨d, hcat, hshape, hwfd, hslice⟩ :=
    cat_spec t rest (if bf then 0 else 1) hdim hcompat hwf
  have hd : d = ⟨t.shape.set (if bf then 0 else 1)
        (((t :: rest).map fun s => s.shape.getD (if bf then 0 else 1) 0).sum),
      (List.range (t.shape.take (if bf then 0 else 1)).prod).flatMap fun i =>
        (t :: rest).flatMap fun s =>
          ((s.data.drop (i * innerAt (if bf then 0 else 1) s)).take
            (innerAt (if bf then 0 else 1) s))⟩ := by
    have h0 := cat_ok t rest (if bf then 0 else 1) hdim hcompat
    rw [hcat] at h0
    exact Except.ok.inj h0
  refine ⟨d, hcat, hshape, hwfd, ?_, hslice, ?_, ?_⟩
  · intro hb
    subst hb
    simp only [if_true] at hd ⊢
    rw [hd]
    show ((List.range (t.shape.take 0).prod).flatMap fun i =>
        (t :: rest).flatMap fun s =>
          ((s.data.drop (i * innerAt 0 s)).take (innerAt 0 s)))
      = ((t :: rest).map Tensor.data).flatten
    rw [List.take_zero, List.prod_nil,
      show List.range 1 = [0] by simp [List.range_succ],
      List.flatMap_cons, List.flatMap_nil, List.append_nil,
      ← List.flatMap_def]
    apply List.flatMap_congr
    intro s hs
    rw [Nat.zero_mul, List.drop_zero]
    apply List.take_of_length_le
    rw [hwf s hs, innerAt, List.drop_zero]
  · intro hnc
    unfold reshape_data
    rw [hcat]
    show (if cd = true ∧ 2 < d.shape.length
        then (pure (view2 d) : Except CatErr Tensor) else pure d) = .ok d
    rw [if_neg hnc]
    rfl
  · intro hcd hlen hpos
    have hne : d.shape ≠ [] := by
      intro h0
      rw [h0] at hlen
      simp at hlen
    have hlast : d.shape.getD (d.shape.length - 1) 0
        = d.shape.getLast hne := by
      rw [List.getLast_eq_getElem,
        List.getD_eq_getElem d.shape 0 (by omega)]
    have hprod : d.shape.dropLast.prod * d.shape.getD (d.shape.length - 1) 0
        = d.numel := by
      rw [hlast, Tensor.numel]
      conv_rhs => rw [← List.dropLast_append_getLast hne]
      rw [List.prod_append, List.prod_cons, List.prod_nil, Nat.mul_one]
    refine ⟨?_, hprod⟩
    unfold reshape_data
    rw [hcat]
    show (if cd = true ∧ 2 < d.shape.length
        then (pure (view2 d) : Except CatErr Tensor) else pure d) = _
    rw [if_pos ⟨hcd, hlen⟩]
    have hview : view2 d
        = ⟨[d.shape.dropLast.prod, d.shape.getD (d.shape.length - 1) 0],
            d.data⟩ := by
      show (⟨[d.numel / d.shape.getD (d.shape.length - 1) 0,
          d.shape.getD (d.shape.length - 1) 0], d.data⟩ : Tensor) = _
      rw [← hprod, Nat.mul_div_cancel _ hpos]
    rw [hview]
    rfl

theorem reshape_data_spec_witness :
    (∀ s ∈ [(⟨[2, 2, 2], [1, 2, 3, 4, 5, 6, 7, 8]⟩ : Tensor),
        ⟨[1, 2, 2], [9, 10, 11, 12]⟩], Tensor.wf s)
    ∧ (∃ d, cat [(⟨[2, 2, 2], [1, 2, 3, 4, 5, 6, 7, 8]⟩ : Tensor),
          ⟨[1, 2, 2], [9, 10, 11, 12]⟩] (if true then 0 else 1) = .ok d
        ∧ reshape_data [(⟨[2, 2, 2], [1, 2, 3, 4, 5, 6, 7, 8]⟩ : Tensor),
            ⟨[1, 2, 2], [9, 10, 11, 12]⟩] true true
          = .ok ⟨[d.shape.dropLast.prod, d.shape.getD (d.shape.length - 1) 0],
              d.data⟩
        ∧ d.shape.dropLast.prod * d.shape.getD (d.shape.length - 1) 0
            = d.numel) := by
  constructor
  · decide
  · obtain ⟨d, hcat, hshape, hwfd, hflat, hslice, hnc, hc⟩ :=
      reshape_data_spec ⟨[2, 2, 2], [1, 2, 3, 4, 5, 6, 7, 8]⟩
        [⟨[1, 2, 2], [9, 10, 11, 12]⟩] true true
        (by decide) (by decide) (by decide)
    have h2 : 2 < d.shape.length := by rw [hshape]; decide
    have hp : 0 < d.shape.getD (d.shape.length - 1) 0 := by rw [hshape]; decide
    exact ⟨d, hcat, (hc rfl h2 hp).1, (hc rfl h2 hp).2⟩

/-- C9: when two tensors of the data_list disagree on an axis other than the
concatenation axis, reshape_data fails with exactly the shape-mismatch error
of the underlying cat, propagated unwrapped. -/
theorem reshape_data_mismatch (t : Tensor) (rest : List Tensor) (bf cd : Bool)
    (s1 s2 : Tensor) (h1 : s1 ∈ t :: rest) (h2 : s2 ∈ t :: rest)
    (hdim : (if bf then 0 else 1) < t.shape.length)
    (hbad : ¬ shapeCompat (if bf then 0 else 1) s1 s2) :
    ∃ u : Tensor, cat (t :: rest) (if bf then 0 else 1)
        = .error (.shapeMismatch t.shape u.shape)
      ∧ reshape_data (t :: rest) bf cd
          = .error (.shapeMismatch t.shape u.shape) := by
  have hex : ∃ s ∈ rest, ¬ shapeCompat (if bf then 0 else 1) s t := by
    by_contra hall
    push_neg at hall
    have hct : ∀ s ∈ t :: rest, shapeCompat (if bf then 0 else 1) s t := by
      intro s hs
      rcases List.mem_cons.mp hs with h | h
      · subst h; exact ⟨rfl, rfl⟩
      · exact hall s h
    have hc1 := hct s1 h1
    have hc2 := hct s2 h2
    exact hbad ⟨hc1.1.trans hc2.1.symm, hc1.2.trans hc2.2.symm⟩
  have hfind : ∃ u, rest.find? (fun s =>
      decide (¬(s.shape.length = t.shape.length ∧
        s.shape.eraseIdx (if bf then 0 else 1)
          = t.shape.eraseIdx (if bf then 0 else 1)))) = some u := by
    rw [← Option.isSome_iff_exists, List.find?_isSome]
    obtain ⟨s, hs, hbadc⟩ := hex
    exact ⟨s, hs, decide_eq_true hbadc⟩
  obtain ⟨u, hu⟩ := hfind
  have hcat : cat (t :: rest) (if bf then 0 else 1)
      = .error (.shapeMismatch t.shape u.shape) := by
    simp only [cat]
    rw [if_pos hdim, hu]
  refine ⟨u, hcat, ?_⟩
  unfold reshape_data
  rw [hcat]
  rfl

theorem reshape_data_mismatch_witness :
    ((⟨[2, 2], [1, 2, 3, 4]⟩ : Tensor) ∈
        [(⟨[2, 2], [1, 2, 3, 4]⟩ : Tensor), ⟨[2, 3], [5, 6, 7, 8, 9, 10]⟩])
    ∧ ((⟨[2, 3], [5, 6, 7, 8, 9, 10]⟩ : Tensor) ∈
        [(⟨[2, 2], [1, 2, 3, 4]⟩ : Tensor), ⟨[2, 3], [5, 6, 7, 8, 9, 10]⟩])
    ∧ ¬ shapeCompat (if true then 0 else 1) ⟨[2, 2], [1, 2, 3, 4]⟩
        ⟨[2, 3], [5, 6, 7, 8, 9, 10]⟩
    ∧ ∃ u : Tensor, cat [(⟨[2, 2], [1, 2, 3, 4]⟩ : Tensor),
          ⟨[2, 3], [5, 6, 7, 8, 9, 10]⟩] (if true then 0 else 1)
        = .error (.shapeMismatch [2, 2] u.shape)
      ∧ reshape_data [(⟨[2, 2], [1, 2, 3, 4]⟩ : Tensor),
          ⟨[2, 3], [5, 6, 7, 8, 9, 10]⟩] true false
        = .error (.shapeMismatch [2, 2] u.shape) :=
  ⟨by decide, by decide, by decide,
    reshape_data_mismatch ⟨[2, 2], [1, 2, 3, 4]⟩
      [⟨[2, 3], [5, 6, 7, 8, 9, 10]⟩] true false
      ⟨[2, 2], [1, 2, 3, 4]⟩ ⟨[2, 3], [5, 6, 7, 8, 9, 10]⟩
      (by decide) (by decide) (by decide) (by decide)⟩

/-- C10: a non-empty data_list of 1-dimensional tensors makes reshape_data
fail with batch_first = False, because the concatenation axis
int(not batch_first) = 1 does not exist on a 1-dimensional tensor, while the
same data_list succeeds with batch_first = True. -/
theorem reshape_data_one_dim (t : Tensor) (rest : List Tensor) (cd : Bool)
    (h1 : ∀ s ∈ t :: rest, s.shape.length = 1) :
    reshape_data (t :: rest) false cd = .error (.dimOutOfRange 1 1)
    ∧ ∃ r, reshape_data (t :: rest) true cd = .ok r := by
  have ht1 : t.shape.length = 1 := h1 t (List.mem_cons_self t rest)
  have herase : ∀ s ∈ t :: rest, s.shape.eraseIdx 0 = [] := by
    intro s hs
    have := h1 s hs
    cases hsh : s.shape with
    | nil => rfl
    | cons x xs =>
        rw [hsh] at this
        simp only [List.length_cons] at this
        have : xs = [] := List.eq_nil_of_length_eq_zero (by omega)
        rw [this]
        rfl
  constructor
  · have hcat : cat (t :: rest) (if false then 0 else 1)
        = .error (.dimOutOfRange 1 t.shape.length) :=
      cat_dim_oob t rest 1 (by omega)
    rw [ht1] at hcat
    unfold reshape_data
    rw [hcat]
    rfl
  · have hcompat : ∀ s ∈ rest, shapeCompat 0 s t := by
      intro s hs
      exact ⟨by rw [h1 s (List.mem_cons_of_mem t hs), ht1],
        by rw [herase s (List.mem_cons_of_mem t hs),
          herase t (List.mem_cons_self t rest)]⟩
    have hcat := cat_ok t rest 0 (by omega) hcompat
    have hres : reshape_data (t :: rest) true cd
        = .ok ⟨t.shape.set 0
              ((List.map (fun s => s.shape.getD 0 0) (t :: rest)).sum),
            (List.range (List.take 0 t.shape).prod).flatMap fun i =>
              (t :: rest).flatMap fun s =>
                List.take (innerAt 0 s) (List.drop (i * innerAt 0 s) s.data)⟩ := by
      unfold reshape_data
      rw [show (if (true : Bool) then (0 : Nat) else 1) = 0 from rfl, hcat]
      show (if cd = true ∧ 2 < (t.shape.set 0
            ((List.map (fun s => s.shape.getD 0 0) (t :: rest)).sum)).length
          then (pure (view2 _) : Except CatErr Tensor) else pure _) = _
      rw [if_neg (by
        rintro ⟨-, hgt⟩
        rw [List.length_set, ht1] at hgt
        omega)]
      rfl
    exact ⟨_, hres⟩

theorem reshape_data_one_dim_witness :
    (∀ s ∈ [(⟨[3], [1, 2, 3]⟩ : Tensor), ⟨[2], [4, 5]⟩], s.shape.length = 1)
    ∧ reshape_data [(⟨[3], [1, 2, 3]⟩ : Tensor), ⟨[2], [4, 5]⟩] false false
        = .error (.dimOutOfRange 1 1)
    ∧ ∃ r, reshape_data [(⟨[3], [1, 2, 3]⟩ : Tensor), ⟨[2], [4, 5]⟩] true false
        = .ok r :=
  ⟨by decide,
    (reshape_data_one_dim ⟨[3], [1, 2, 3]⟩ [⟨[2], [4, 5]⟩] false
      (by decide)).1,
    (reshape_data_one_dim ⟨[3], [1, 2, 3]⟩ [⟨[2], [4, 5]⟩] false
      (by decide)).2⟩

/-! ### append_bias_ones -/

theorem drop_append_singleton_succ {α : Type} (sh : List α) (x : α) :
    (sh ++ [x]).drop (sh.length + 1) = [] := by
  rw [← List.drop_drop, List.drop_left]
  rfl

theorem eraseIdx_append_last {α : Type} (sh : List α) (x : α) :
    (sh ++ [x]).eraseIdx sh.length = sh := by
  rw [List.eraseIdx_eq_take_drop_succ, List.take_left,
    drop_append_singleton_succ, List.append_nil]

theorem set_append_last {α : Type} (sh : List α) (x v : α) :
    (sh ++ [x]).set sh.length v = sh ++ [v] := by
  rw [List.set_eq_take_cons_drop _ (by simp), List.take_left,
    drop_append_singleton_succ]

/-- C4: append_bias_ones maps a tensor of shape [..., D] to one of shape
[..., D+1] agreeing with the input on the first D entries of the last axis
at every leading position and holding 1 in the new final entry at every
leading position. -/
theorem append_bias_ones_spec (t : Tensor) (sh : List Nat) (D : Nat)
    (hsh : t.shape = sh ++ [D]) (hw : t.wf) :
    ∃ r, append_bias_ones t = .ok r
    ∧ r.shape = sh ++ [D + 1]
    ∧ r.wf
    ∧ (∀ i, i < sh.prod →
        (∀ j, j < D →
          r.data.getD (i * (D + 1) + j) 0 = t.data.getD (i * D + j) 0)
        ∧ r.data.getD (i * (D + 1) + D) 0 = 1) := by
  have hdl : t.shape.dropLast = sh := by rw [hsh]; exact List.dropLast_concat
  have hlen1 : t.shape.length - 1 = sh.length := by rw [hsh]; simp
  have habo : append_bias_ones t = cat [t, new_ones (sh ++ [1])] sh.length := by
    unfold append_bias_ones
    rw [hdl, hlen1]
  have hdim : sh.length < t.shape.length := by rw [hsh]; simp
  have hcompat : ∀ s ∈ [new_ones (sh ++ [1])], shapeCompat sh.length s t := by
    intro s hs
    rw [List.mem_singleton] at hs
    subst hs
    refine ⟨by rw [hsh]; simp [new_ones], ?_⟩
    show (sh ++ [1]).eraseIdx sh.length = t.shape.eraseIdx sh.length
    rw [hsh, eraseIdx_append_last, eraseIdx_append_last]
  have hwfall : ∀ s ∈ t :: [new_ones (sh ++ [1])], s.wf := by
    intro s hs
    rcases List.mem_cons.mp hs with h | h
    · subst h; exact hw
    · rw [List.mem_singleton] at h
      subst h
      simp [new_ones, Tensor.wf]
  obtain ⟨d, hcat, hshape, hwfd, hslice⟩ :=
    cat_spec t [new_ones (sh ++ [1])] sh.length hdim hcompat hwfall
  have hgDt : t.shape.getD sh.length 0 = D := by
    rw [hsh, getD_append_ge 0 (Nat.le_refl _), Nat.sub_self]
    rfl
  have hgDo : ((sh ++ [1] : List Nat)).getD sh.length 0 = 1 := by
    rw [getD_append_ge 0 (Nat.le_refl _), Nat.sub_self]
    rfl
  have hshape2 : d.shape = sh ++ [D + 1] := by
    rw [hshape]
    simp only [List.map_cons, List.map_nil, List.sum_cons, List.sum_nil]
    rw [hgDt, show (new_ones (sh ++ [1])).shape = sh ++ [1] from rfl, hgDo,
      hsh, Nat.add_zero, set_append_last]
  have hin_t : innerAt sh.length t = D := by
    rw [innerAt, hsh, List.drop_left]
    simp
  have hin_o : innerAt sh.length (new_ones (sh ++ [1])) = 1 := by
    rw [innerAt, show (new_ones (sh ++ [1])).shape = sh ++ [1] from rfl,
      List.drop_left]
    simp
  have hdataLen : t.data.length = sh.prod * D := by
    rw [hw, hsh, List.prod_append]
    simp
  have houter : (t.shape.take sh.length).prod = sh.prod := by
    rw [hsh, List.take_left]
  have hoprod : ((sh ++ [1] : List Nat)).prod = sh.prod := by
    rw [List.prod_append]
    simp
  refine ⟨d, by rw [habo]; exact hcat, hshape2, hwfd, ?_⟩
  intro i hi
  have hs := hslice i (by rw [houter]; exact hi)
  simp only [List.map_cons, List.map_nil, List.sum_cons, List.sum_nil,
    List.flatMap_cons, List.flatMap_nil, List.append_nil, Nat.add_zero] at hs
  rw [hin_t, hin_o] at hs
  have hchlen : ((t.data.drop (i * D)).take D).length = D := by
    rw [List.length_take, List.length_drop, hdataLen]
    have : (i + 1) * D ≤ sh.prod * D :=
      Nat.mul_le_mul (Nat.succ_le_of_lt hi) (Nat.le_refl D)
    rw [Nat.succ_mul] at this
    omega
  have hones1 : ∀ k, k < sh.prod →
      (new_ones (sh ++ [1])).data.getD k 0 = 1 := by
    intro k hk
    show (List.replicate ((sh ++ [1] : List Nat)).prod (1 : ℚ)).getD k 0 = 1
    have hkP : k
        < (List.replicate ((sh ++ [1] : List Nat)).prod (1 : ℚ)).length := by
      rw [List.length_replicate, hoprod]
      exact hk
    rw [List.getD_eq_getElem _ 0 hkP]
    simp
  constructor
  · intro j hj
    rw [← getD_drop_add (0 : ℚ) (i * (D + 1)) j,
      ← getD_take_lt (0 : ℚ) (Nat.lt_succ_of_lt hj), hs,
      getD_append_lt 0 (by rw [hchlen]; exact hj),
      getD_take_lt (0 : ℚ) hj, getD_drop_add]
  · rw [← getD_drop_add (0 : ℚ) (i * (D + 1)) D,
      ← getD_take_lt (0 : ℚ) (Nat.lt_succ_self D), hs,
      getD_append_ge 0 (by rw [hchlen])]
    rw [hchlen, Nat.sub_self,
      getD_take_lt (0 : ℚ) Nat.one_pos, getD_drop_add, Nat.mul_one,
      Nat.add_zero]
    exact hones1 i hi

theorem append_bias_ones_spec_witness :
    (Tensor.mk [2, 2] [1, 2, 3, 4]).shape = [2] ++ [2]
    ∧ Tensor.wf ⟨[2, 2], [1, 2, 3, 4]⟩
    ∧ ∃ r, append_bias_ones ⟨[2, 2], [1, 2, 3, 4]⟩ = .ok r
        ∧ r.shape = [2] ++ [2 + 1]
        ∧ (∀ j, j < 2 → r.data.getD (1 * (2 + 1) + j) 0
            = (Tensor.mk [2, 2] [1, 2, 3, 4]).data.getD (1 * 2 + j) 0)
        ∧ r.data.getD (1 * (2 + 1) + 2) 0 = 1 := by
  obtain ⟨r, hok, hsh, hwfr, hent⟩ :=
    append_bias_ones_spec ⟨[2, 2], [1, 2, 3, 4]⟩ [2] 2 rfl rfl
  exact ⟨rfl, rfl, r, hok, hsh, (hent 1 (by decide)).1, (hent 1 (by decide)).2⟩

end KfacUtils
